import Mathlib

/-!
Formal model of the Negocia conversation-analysis core: the transcript
session store (`app/store/session_store.py`), the rule-based insight
engine (`app/engine/insight_engine.py`), the pydantic data model
(`app/models/*.py`) and the insights API filter (`app/api/insights.py`).

Modelling conventions:
* Python `float` timestamps and confidences are embedded as exact
  rationals (`ℚ`).  The decimal rule confidences are written in reduced
  constructor form (`⟨9, 10, _, _⟩` for `0.9`) so that comparisons
  reduce in the kernel.
* Python strings are Lean `String`; `str.lower`, `str.strip` and
  `str.split` are modelled character-listwise below.
* Python dictionaries that are only iterated in insertion order
  (`collections.Counter`, `defaultdict`) are modelled as association
  lists in insertion order; Python `set` membership is modelled by list
  membership.
* Mutation is modelled by explicit state passing: a Python method that
  mutates `self` and returns `r` becomes a Lean function returning the
  new state paired with `r`.
* Python `list.sort` / `sorted` (stable sorts by a key) are modelled by
  `List.insertionSort`, which is stable and sorts by the same total
  preorder.
-/

namespace Negocia

/-- 0.95 as a reduced rational. -/
def q95 : ℚ := ⟨19, 20, by decide, by decide⟩

/-- 0.9 as a reduced rational. -/
def q90 : ℚ := ⟨9, 10, by decide, by decide⟩

/-- 0.85 as a reduced rational. -/
def q85 : ℚ := ⟨17, 20, by decide, by decide⟩

/-- 0.8 as a reduced rational. -/
def q80 : ℚ := ⟨4, 5, by decide, by decide⟩

/-- 0.75 as a reduced rational. -/
def q75 : ℚ := ⟨3, 4, by decide, by decide⟩

/-- 0.7 as a reduced rational. -/
def q70 : ℚ := ⟨7, 10, by decide, by decide⟩

/-- 0.65 as a reduced rational. -/
def q65 : ℚ := ⟨13, 20, by decide, by decide⟩

/-- 0.6 as a reduced rational. -/
def q60 : ℚ := ⟨3, 5, by decide, by decide⟩

/-- 0.5 as a reduced rational. -/
def q50 : ℚ := ⟨1, 2, by decide, by decide⟩

/-- `app/models/webhook.py`, `TranscriptSegment`: one transcript segment.
`speaker` is optional, `is_user` defaults to `False`, `timestamp` is a
required float (embedded as `ℚ`). -/
structure TranscriptSegment where
  text : String
  speaker : Option String
  is_user : Bool
  timestamp : ℚ
deriving DecidableEq

/-- `app/models/insights.py`, `InsightType`: the five categories. -/
inductive InsightType where
  | pricing_objection
  | buying_signal
  | competitor_mention
  | next_step
  | stall_tactic
deriving DecidableEq

/-- `InsightType` is a `str` enum in the source; `value` is the
underlying string of each member. -/
def InsightType.value : InsightType → String
  | .pricing_objection => "pricing_objection"
  | .buying_signal => "buying_signal"
  | .competitor_mention => "competitor_mention"
  | .next_step => "next_step"
  | .stall_tactic => "stall_tactic"

/-- `app/models/insights.py`, `Insight`: a single detected insight. -/
structure Insight where
  type : InsightType
  confidence : ℚ
  matched_text : String
  matched_phrase : String
  speaker : Option String
  timestamp : Option ℚ
  suggestion : String
deriving DecidableEq

/-- `app/models/insights.py`, `SessionInsights`.  The `summary` dict
(category value → count) is modelled as an association list in
insertion order. -/
structure SessionInsights where
  session_id : String
  insights : List Insight
  total_insights : Nat
  summary : List (String × Nat)
deriving DecidableEq

/-- `app/models/session.py`, `SpeakerStats` (speaker, segment count,
word count, percentage talk ratio). -/
structure SpeakerStats where
  speaker : String
  segment_count : Nat
  word_count : Nat
  talk_ratio : ℚ
deriving DecidableEq

/-- `app/engine/insight_engine.py`, `Rule`: a single detection rule. -/
structure Rule where
  phrase : String
  confidence : ℚ
  suggestion : String
deriving DecidableEq

/-- `PRICING_OBJECTION_RULES` from `app/engine/insight_engine.py`. -/
def PRICING_OBJECTION_RULES : List Rule := [
  ⟨"too expensive", q90, "Acknowledge the concern, then pivot to ROI and value delivered."⟩,
  ⟨"over our budget", q90, "Ask what their budget range is — explore flexible pricing or phased rollout."⟩,
  ⟨"out of budget", q90, "Ask what their budget range is — explore flexible pricing or phased rollout."⟩,
  ⟨"can\x27t afford", q85, "Explore payment plans or a smaller starter package."⟩,
  ⟨"cost is too high", q85, "Break down the cost per user/month to reframe the investment."⟩,
  ⟨"pricing is steep", q80, "Compare against the cost of NOT solving the problem."⟩,
  ⟨"cheaper option", q80, "Differentiate on value, support, and total cost of ownership."⟩,
  ⟨"price is a concern", q80, "Validate their concern, then present a business case with projected savings."⟩,
  ⟨"budget constraints", q75, "Propose a phased implementation to spread costs."⟩,
  ⟨"not in the budget", q85, "Ask about their budget cycle — can this be planned for next quarter?"⟩,
  ⟨"spend that much", q70, "Anchor the conversation on business impact, not just price."⟩]

/-- `BUYING_SIGNAL_RULES` from `app/engine/insight_engine.py`. -/
def BUYING_SIGNAL_RULES : List Rule := [
  ⟨"send me a proposal", q95, "Prepare and send the proposal within 24 hours. Strike while interest is hot."⟩,
  ⟨"send a proposal", q95, "Prepare and send the proposal within 24 hours. Strike while interest is hot."⟩,
  ⟨"ready to move forward", q95, "Confirm the scope and timeline, then initiate onboarding steps."⟩,
  ⟨"move forward", q90, "Clarify the next step — contract review, pilot, or sign-off."⟩,
  ⟨"sign the contract", q95, "Prepare the contract and schedule a signing call."⟩,
  ⟨"start a pilot", q90, "Define the pilot scope, success criteria, and timeline."⟩,
  ⟨"when can we start", q90, "Provide a concrete onboarding timeline."⟩,
  ⟨"how soon can", q85, "This signals urgency — respond with a fast-track option."⟩,
  ⟨"ready to buy", q95, "Close the deal. Confirm the order details and next steps."⟩,
  ⟨"let\x27s do it", q85, "Confirm their decision and outline the immediate next steps."⟩,
  ⟨"looks good", q60, "Positive signal — ask a closing question to advance the deal."⟩,
  ⟨"interested in", q50, "Moderate interest — explore what specifically excites them."⟩,
  ⟨"i like", q50, "Positive sentiment — reinforce the value they see."⟩]

/-- `COMPETITOR_MENTION_RULES` from `app/engine/insight_engine.py`. -/
def COMPETITOR_MENTION_RULES : List Rule := [
  ⟨"competitor", q80, "Ask what they like about the competitor, then differentiate on your strengths."⟩,
  ⟨"alternative solution", q75, "Understand their evaluation criteria and position your unique advantages."⟩,
  ⟨"other vendor", q80, "Ask where they are in the evaluation — are they actively comparing?"⟩,
  ⟨"other provider", q80, "Ask where they are in the evaluation — are they actively comparing?"⟩,
  ⟨"looking at other", q70, "Understand their timeline and what would make them choose you."⟩,
  ⟨"comparing with", q80, "Ask what criteria matter most — tailor your pitch accordingly."⟩,
  ⟨"evaluated another", q75, "Ask what they learned and how you can address any gaps."⟩,
  ⟨"switching from", q85, "They\x27re already considering a change — understand their pain points with the current solution."⟩]

/-- `NEXT_STEP_RULES` from `app/engine/insight_engine.py`. -/
def NEXT_STEP_RULES : List Rule := [
  ⟨"schedule a follow-up", q90, "Suggest specific dates/times. Don\x27t leave it open-ended."⟩,
  ⟨"book a meeting", q90, "Send a calendar invite before they leave the call."⟩,
  ⟨"set up a demo", q90, "Confirm the demo scope and who should attend."⟩,
  ⟨"loop in my team", q85, "Great — ask who specifically and offer to present to them."⟩,
  ⟨"get back to you", q60, "Pin down a specific date: \x27When works best to reconnect?\x27"⟩,
  ⟨"follow up next week", q80, "Confirm the day and send a calendar hold."⟩,
  ⟨"talk to my manager", q70, "Offer to join the internal discussion or provide a one-pager for their manager."⟩,
  ⟨"internal discussion", q65, "Ask what information they need for the internal discussion."⟩,
  ⟨"discuss internally", q65, "Offer a concise summary document they can share internally."⟩]

/-- `STALL_TACTIC_RULES` from `app/engine/insight_engine.py`. -/
def STALL_TACTIC_RULES : List Rule := [
  ⟨"not a priority right now", q85, "Ask what IS a priority and whether this problem will get worse over time."⟩,
  ⟨"maybe next quarter", q70, "Understand what changes next quarter and create urgency for acting sooner."⟩,
  ⟨"need more time", q60, "Ask what specific information they need to make a decision."⟩,
  ⟨"think about it", q65, "Ask what specific concerns remain — try to address them now."⟩,
  ⟨"not ready yet", q70, "Ask what would make them ready and what\x27s blocking the decision."⟩,
  ⟨"timing isn\x27t right", q75, "Explore what would make the timing right — is there a triggering event?"⟩,
  ⟨"circle back later", q60, "Pin down a specific date and send a calendar invite."⟩]

/-- `_RULE_MAP` from `app/engine/insight_engine.py`: insertion-ordered
dict from insight type to its rules (Python 3.7+ dicts iterate in
insertion order). -/
def RULE_MAP : List (InsightType × List Rule) := [
  (.pricing_objection, PRICING_OBJECTION_RULES),
  (.buying_signal, BUYING_SIGNAL_RULES),
  (.competitor_mention, COMPETITOR_MENTION_RULES),
  (.next_step, NEXT_STEP_RULES),
  (.stall_tactic, STALL_TACTIC_RULES)]

/-- The nested loops `for insight_type, rules in _RULE_MAP.items(): for
rule in rules:` visit exactly the pairs of this flattened list, in this
order. -/
def rulePairs : List (InsightType × Rule) :=
  RULE_MAP.flatMap (fun p => p.2.map (fun r => (p.1, r)))

/-- Python `str.lower()`, modelled characterwise by `Char.toLower`
(the rule phrases and every text exercised here are ASCII). -/
def pyLower (s : String) : String := ⟨s.data.map Char.toLower⟩

/-- Python substring containment `needle in hay` on character lists:
some tail of `hay` starts with `needle`. -/
def containsSub (needle hay : List Char) : Bool :=
  hay.tails.any (fun t => needle.isPrefixOf t)

/-- Python `str.strip()`: drop whitespace from both ends. -/
def pyStrip (s : String) : String :=
  ⟨(((s.data.dropWhile Char.isWhitespace).reverse.dropWhile Char.isWhitespace).reverse)⟩

/-- Helper for `pyWordCount`: counts maximal runs of non-whitespace
characters; the flag records whether the previous character was
non-whitespace. -/
def countTokensAux : Bool → List Char → Nat
  | _, [] => 0
  | inTok, c :: cs =>
    if Char.isWhitespace c then countTokensAux false cs
    else (if inTok then 0 else 1) + countTokensAux true cs

/-- Python `len(s.split())`: the number of whitespace-delimited tokens
of `s`. -/
def pyWordCount (s : String) : Nat := countTokensAux false s.data

/-- `rule.phrase in text_lower` for a segment, from
`InsightEngine.analyze_segments`. -/
def phraseHit (r : Rule) (seg : TranscriptSegment) : Bool :=
  containsSub r.phrase.data (pyLower seg.text).data

/-- The `Insight(...)` constructed on a first-time match in
`InsightEngine.analyze_segments`: confidence and suggestion are copied
from the rule, matched text is the full segment text, matched phrase is
the rule phrase, speaker and timestamp come from the segment. -/
def mkInsight (t : InsightType) (r : Rule) (seg : TranscriptSegment) : Insight :=
  ⟨t, r.confidence, seg.text, r.phrase, seg.speaker, some seg.timestamp, r.suggestion⟩

/-- The scan state of one `analyze_segments` run: the `seen` dedup-key
set (modelled as the list of keys in insertion order) and the
accumulated `insights` list. -/
structure ScanState where
  seen : List (String × String × ℚ)
  out : List Insight

/-- The dedup key `(insight_type.value, rule.phrase, segment.timestamp)`
of one match. -/
def keyP (p : InsightType × Rule) (seg : TranscriptSegment) : String × String × ℚ :=
  (p.1.value, p.2.phrase, seg.timestamp)

/-- The body of the innermost rule loop of
`InsightEngine.analyze_segments`: on a phrase hit whose dedup key is
unseen, record the key and append the insight; otherwise leave the
state unchanged. -/
def scanStep (seg : TranscriptSegment) (st : ScanState) (p : InsightType × Rule) : ScanState :=
  if phraseHit p.2 seg then
    if keyP p seg ∈ st.seen then st
    else ⟨st.seen ++ [keyP p seg], st.out ++ [mkInsight p.1 p.2 seg]⟩
  else st

/-- One iteration of the outer segment loop: run every
(insight type, rule) pair of the catalog against one segment. -/
def processSegment (st : ScanState) (seg : TranscriptSegment) : ScanState :=
  rulePairs.foldl (scanStep seg) st

/-- The full scan phase of `analyze_segments` over a segment list,
starting from the empty `seen` set and empty insight list. -/
def scanSegments (segs : List TranscriptSegment) : ScanState :=
  segs.foldl processSegment ⟨[], []⟩

/-- The sliding window of `analyze_segments`: if `window_size > 0` and
the segment count exceeds it, keep only `segments[-window_size:]`,
i.e. drop all but the last `window_size` elements. -/
def targetSegments (window_size : Nat) (segments : List TranscriptSegment) :
    List TranscriptSegment :=
  if 0 < window_size ∧ window_size < segments.length then
    segments.drop (segments.length - window_size)
  else segments

/-- The effective sort timestamp `i.timestamp or 0` of the insight sort
key (a missing timestamp counts as `0`; so does an explicit `0.0`,
which is the same rational). -/
def effTs (o : Option ℚ) : ℚ := o.getD 0

/-- The sort order of `insights.sort(key=lambda i: (i.timestamp or 0,
-i.confidence))`: lexicographic on (effective timestamp ascending,
confidence descending). -/
def insightLE (a b : Insight) : Prop :=
  effTs a.timestamp < effTs b.timestamp ∨
    (effTs a.timestamp = effTs b.timestamp ∧ b.confidence ≤ a.confidence)

instance : DecidableRel insightLE := fun a b =>
  inferInstanceAs (Decidable (effTs a.timestamp < effTs b.timestamp ∨
    (effTs a.timestamp = effTs b.timestamp ∧ b.confidence ≤ a.confidence)))

instance : IsTotal Insight insightLE where
  total a b := by
    rcases lt_trichotomy (effTs a.timestamp) (effTs b.timestamp) with h | h | h
    · exact Or.inl (Or.inl h)
    · rcases le_total b.confidence a.confidence with hc | hc
      · exact Or.inl (Or.inr ⟨h, hc⟩)
      · exact Or.inr (Or.inr ⟨h.symm, hc⟩)
    · exact Or.inr (Or.inl h)

instance : IsTrans Insight insightLE where
  trans a b c hab hbc := by
    rcases hab with hab | ⟨hab, hab2⟩ <;> rcases hbc with hbc | ⟨hbc, hbc2⟩
    · exact Or.inl (hab.trans hbc)
    · exact Or.inl (hbc ▸ hab)
    · exact Or.inl (hab ▸ hbc)
    · exact Or.inr ⟨hab.trans hbc, hbc2.trans hab2⟩

/-- `Counter` update: bump the count of key `k` by `n` in an
insertion-ordered association list (append a fresh entry when absent). -/
def bump (m : List (String × Nat)) (k : String) (n : Nat) : List (String × Nat) :=
  if m.any (fun q => q.1 == k) then
    m.map (fun q => if q.1 == k then (q.1, q.2 + n) else q)
  else m ++ [(k, n)]

/-- `collections.Counter(ks)`: count occurrences, keys in first-seen
order. -/
def buildCounter (ks : List String) : List (String × Nat) :=
  ks.foldl (fun m k => bump m k 1) []

/-- Association-list lookup with default `0` (a `Counter` yields `0`
for a missing key). -/
def lookup0 : List (String × Nat) → String → Nat
  | [], _ => 0
  | q :: qs, k => if q.1 == k then q.2 else lookup0 qs k

/-- `InsightEngine.analyze_segments(segments, session_id)` of an engine
with the given `window_size`: windowing, scan with dedup, sort by
(timestamp, confidence descending), summary counts.  The module-level
singleton `insight_engine` has `window_size = 0`. -/
def analyze_segments (window_size : Nat) (segments : List TranscriptSegment)
    (session_id : String) : SessionInsights :=
  let target := targetSegments window_size segments
  let insights := (scanSegments target).out
  let sorted := List.insertionSort insightLE insights
  { session_id := session_id
    insights := sorted
    total_insights := sorted.length
    summary := buildCounter (sorted.map (fun i => i.type.value)) }

/-- The label used when Omi does not provide a speaker tag
(`_UNKNOWN_SPEAKER` in `app/store/session_store.py`). -/
def UNKNOWN_SPEAKER : String := "UNKNOWN"

/-- `SessionData` from `app/store/session_store.py`: all data of one
conversation session. -/
structure SessionData where
  session_id : String
  segments : List TranscriptSegment
  segment_count : Nat
  latest_insights : Option SessionInsights
deriving DecidableEq

/-- The dedup key `(s.timestamp, s.text)` of a stored segment. -/
def segKey (s : TranscriptSegment) : ℚ × String := (s.timestamp, s.text)

/-- `SessionData.add_segments`: dedup the incoming segments against the
keys of the currently stored ones, append the remainder in arrival
order, bump `segment_count`, and return the number appended.  The
Python method mutates `self` and returns the count; here it returns the
new state paired with the count. -/
def SessionData.add_segments (sd : SessionData)
    (new_segments : List TranscriptSegment) : SessionData × Nat :=
  let existing_keys := sd.segments.map segKey
  let unique := new_segments.filter (fun s => !(existing_keys.contains (segKey s)))
  ({ sd with
      segments := sd.segments ++ unique
      segment_count := sd.segment_count + unique.length },
    unique.length)

/-- `SessionData.ordered_segments`: segments sorted chronologically by
timestamp (`sorted` in Python is stable; so is `insertionSort`). -/
def SessionData.ordered_segments (sd : SessionData) : List TranscriptSegment :=
  List.insertionSort (fun a b => a.timestamp ≤ b.timestamp) sd.segments

/-- `SessionData._speaker_label`: `segment.speaker.strip() if
segment.speaker else _UNKNOWN_SPEAKER`.  A missing (`None`) or empty
(falsy) speaker maps to the sentinel; any other speaker string is
stripped of surrounding whitespace (so a whitespace-only speaker maps
to the empty string, not to the sentinel). -/
def speakerLabel (seg : TranscriptSegment) : String :=
  match seg.speaker with
  | none => UNKNOWN_SPEAKER
  | some s => if s = "" then UNKNOWN_SPEAKER else pyStrip s

/-- Python `round(x, 1)`, modelled as exact rational rounding of `10*x`
to the nearest integer (Mathlib `round`, halves away from the smaller
integer) divided by `10`.  Binary floating-point representation and
round-half-to-even are not modelled; no claim here depends on a
half-way case. -/
def round1 (x : ℚ) : ℚ := (round (x * 10) : ℚ) / 10

/-- The single pass of `SessionData.get_speaker_stats` that fills the
two `defaultdict`s `speaker_segments` and `speaker_words`, modelled as
insertion-ordered association lists. -/
def statsFold (segs : List TranscriptSegment) :
    List (String × Nat) × List (String × Nat) :=
  segs.foldl
    (fun acc seg =>
      (bump acc.1 (speakerLabel seg) 1,
       bump acc.2 (speakerLabel seg) (pyWordCount seg.text)))
    ([], [])

/-- `sum(d.values())` of an association list. -/
def sumVals (m : List (String × Nat)) : Nat := (m.map (fun q => q.2)).sum

/-- `SessionData.get_speaker_stats`: per-speaker segment count, word
count and percentage talk ratio; `total_words = sum(...) or 1` guards
the division by zero.  The output iterates `speaker_words.items()` in
insertion order. -/
def SessionData.get_speaker_stats (sd : SessionData) : List SpeakerStats :=
  let acc := statsFold sd.segments
  let total_words := if sumVals acc.2 = 0 then 1 else sumVals acc.2
  acc.2.map (fun kv =>
    { speaker := kv.1
      segment_count := lookup0 acc.1 kv.1
      word_count := kv.2
      talk_ratio := round1 ((kv.2 : ℚ) / (total_words : ℚ) * 100) })

/-- `SessionStore` from `app/store/session_store.py`: the registry of
sessions, keyed by session id.  The `asyncio.Lock` serialises every
operation, so each operation is modelled as one atomic function on the
state; the dict is modelled as a function map. -/
structure SessionStore where
  sessions : String → Option SessionData

/-- The store at process start: no sessions. -/
def SessionStore.empty : SessionStore := ⟨fun _ => none⟩

/-- `SessionStore.add_segments`: create the session when absent, then
delegate to `SessionData.add_segments`; returns the new store and the
count of newly added segments. -/
def SessionStore.add_segments (st : SessionStore) (session_id : String)
    (segments : List TranscriptSegment) : SessionStore × Nat :=
  let base : SessionData := (st.sessions session_id).getD ⟨session_id, [], 0, none⟩
  let res := base.add_segments segments
  (⟨fun s => if s = session_id then some res.1 else st.sessions s⟩, res.2)

/-- `SessionStore.get_session`: lookup only, no creation. -/
def SessionStore.get_session (st : SessionStore) (session_id : String) :
    Option SessionData :=
  st.sessions session_id

/-- `SessionStore.run_analysis`: `None` when the session does not
exist; otherwise run the module-level engine (`window_size = 0`) over
`ordered_segments`, cache the result on the session, and return it. -/
def SessionStore.run_analysis (st : SessionStore) (session_id : String) :
    SessionStore × Option SessionInsights :=
  match st.sessions session_id with
  | none => (st, none)
  | some sd =>
    let result := analyze_segments 0 sd.ordered_segments session_id
    (⟨fun s => if s = session_id then some { sd with latest_insights := some result }
               else st.sessions s⟩,
     some result)

/-- `SessionStore.get_insights`: the cached insights of a session, or
`None`; a pure read. -/
def SessionStore.get_insights (st : SessionStore) (session_id : String) :
    Option SessionInsights :=
  match st.sessions session_id with
  | none => none
  | some sd => sd.latest_insights

/-- One state-changing store operation (the read operations
`get_session`, `get_insights`, `list_sessions`, `get_stats` never
change the state). -/
inductive StoreStep : SessionStore → SessionStore → Prop
  | add (st : SessionStore) (session_id : String)
      (segments : List TranscriptSegment) :
      StoreStep st (st.add_segments session_id segments).1
  | analyze (st : SessionStore) (session_id : String) :
      StoreStep st (st.run_analysis session_id).1

/-- Stores reachable from the empty store by store operations. -/
def Reachable (st : SessionStore) : Prop :=
  Relation.ReflTransGen StoreStep SessionStore.empty st

/-- A state-changing store operation whose ingested list (when it is an
ingestion) has pairwise-distinct dedup keys. -/
inductive StoreStepD : SessionStore → SessionStore → Prop
  | add (st : SessionStore) (session_id : String)
      (segments : List TranscriptSegment)
      (hd : (segments.map segKey).Nodup) :
      StoreStepD st (st.add_segments session_id segments).1
  | analyze (st : SessionStore) (session_id : String) :
      StoreStepD st (st.run_analysis session_id).1

/-- Stores reachable from the empty store when every ingested fragment
list has pairwise-distinct `(timestamp, text)` keys. -/
def ReachableD (st : SessionStore) : Prop :=
  Relation.ReflTransGen StoreStepD SessionStore.empty st

/-- The insight filter of the `GET /insights/{session_id}` endpoint
(`app/api/insights.py`, `get_insights`): optional type filter, then
optional confidence filter, then a summary recomputed over the
filtered list. -/
def filterResponse (session_id : String) (ty : Option InsightType)
    (min_confidence : ℚ) (ins : SessionInsights) : SessionInsights :=
  let filtered0 := ins.insights
  let filtered1 := match ty with
    | none => filtered0
    | some t => filtered0.filter (fun i => i.type == t)
  let filtered := if 0 < min_confidence then
      filtered1.filter (fun i => decide (min_confidence ≤ i.confidence))
    else filtered1
  { session_id := session_id
    insights := filtered
    total_insights := filtered.length
    summary := buildCounter (filtered.map (fun i => i.type.value)) }

/-- The `GET /insights/{session_id}` handler: 404 (`none`) when the
session does not exist; otherwise filter the cached insights, running
the analysis first when no cache exists.  (When `run_analysis` returns
`None` the Python handler would fail on `insights.insights`; that
branch is unreachable because the session exists, and is modelled as a
`none` response.) -/
def getInsightsEndpoint (st : SessionStore) (session_id : String)
    (ty : Option InsightType) (min_confidence : ℚ) :
    SessionStore × Option SessionInsights :=
  match st.sessions session_id with
  | none => (st, none)
  | some _ =>
    match st.get_insights session_id with
    | some ins => (st, some (filterResponse session_id ty min_confidence ins))
    | none =>
      match st.run_analysis session_id with
      | (st1, some ins) => (st1, some (filterResponse session_id ty min_confidence ins))
      | (st1, none) => (st1, none)

/-- Spec-side reading of C5: "the last `window_size` fragments (by
input order)", written as reverse / take / reverse. -/
def specLastFragments (window_size : Nat) (l : List TranscriptSegment) :
    List TranscriptSegment :=
  (l.reverse.take window_size).reverse

/-- Generic keyed accumulation: fold a list into an insertion-ordered
counter, bumping key `key x` by `amt x`.  `buildCounter` and the
speaker-stats dictionaries are instances of this shape. -/
def keyFold {α : Type} (key : α → String) (amt : α → Nat) (l : List α)
    (acc : List (String × Nat)) : List (String × Nat) :=
  l.foldl (fun m x => bump m (key x) (amt x)) acc

/-- The dedup key of an emitted insight, as recorded in `seen`
(`(insight_type.value, rule.phrase, segment.timestamp)`; the insight
carries the segment timestamp wrapped in `some`). -/
def keyI (i : Insight) : String × String × Option ℚ :=
  (i.type.value, i.matched_phrase, i.timestamp)

/-- A `seen` entry viewed as an insight key. -/
def liftK (k : String × String × ℚ) : String × String × Option ℚ :=
  (k.1, k.2.1, some k.2.2)

/-- Scan-state invariant: the emitted insights and the `seen` set carry
exactly the same keys, in the same order, without duplicates. -/
def GoodState (st : ScanState) : Prop :=
  st.out.map keyI = st.seen.map liftK ∧ st.seen.Nodup

/-- Number of fragments with normalized speaker label `L`. -/
def labelCount (l : List TranscriptSegment) (L : String) : Nat :=
  (l.filter (fun s => speakerLabel s == L)).length

/-- Total word count of the fragments with normalized speaker label
`L`. -/
def labelWords (l : List TranscriptSegment) (L : String) : Nat :=
  ((l.filter (fun s => speakerLabel s == L)).map (fun s => pyWordCount s.text)).sum

/-- Total word count over all fragments. -/
def totalWords (l : List TranscriptSegment) : Nat :=
  (l.map (fun s => pyWordCount s.text)).sum

/-! ### Helper lemmas: the session data and the store -/

theorem add_segments_fst_segments (sd : SessionData) (l : List TranscriptSegment) :
    (sd.add_segments l).1.segments
      = sd.segments ++ l.filter (fun s => !((sd.segments.map segKey).contains (segKey s))) :=
  rfl

theorem add_segments_fst_count (sd : SessionData) (l : List TranscriptSegment) :
    (sd.add_segments l).1.segment_count
      = sd.segment_count
        + (l.filter (fun s => !((sd.segments.map segKey).contains (segKey s)))).length :=
  rfl

theorem add_segments_snd_eq (sd : SessionData) (l : List TranscriptSegment) :
    (sd.add_segments l).2
      = (l.filter (fun s => !((sd.segments.map segKey).contains (segKey s)))).length :=
  rfl

theorem add_segments_of_all_present (sd : SessionData) (l : List TranscriptSegment)
    (h : ∀ s ∈ l, segKey s ∈ sd.segments.map segKey) :
    sd.add_segments l = (sd, 0) := by
  have hfil : l.filter (fun s => !((sd.segments.map segKey).contains (segKey s))) = [] := by
    refine List.filter_eq_nil_iff.mpr ?_
    intro s hs
    simp [List.contains, h s hs]
  show (⟨sd.session_id, sd.segments ++ _, sd.segment_count + List.length _,
      sd.latest_insights⟩, List.length _) = (sd, 0)
  rw [hfil]
  simp

theorem add_segments_idem (sd : SessionData) (l : List TranscriptSegment) :
    (sd.add_segments l).1.add_segments l = ((sd.add_segments l).1, 0) := by
  refine add_segments_of_all_present _ _ ?_
  intro s hs
  rw [add_segments_fst_segments, List.map_append, List.mem_append]
  by_cases hk : segKey s ∈ sd.segments.map segKey
  · exact Or.inl hk
  · refine Or.inr (List.mem_map_of_mem segKey (List.mem_filter.mpr ⟨hs, ?_⟩))
    simp [List.contains, hk]

theorem store_add_sessions_self (st : SessionStore) (sid : String)
    (l : List TranscriptSegment) :
    ((st.add_segments sid l).1).sessions sid
      = some (((st.sessions sid).getD ⟨sid, [], 0, none⟩).add_segments l).1 := by
  simp [SessionStore.add_segments]

theorem store_add_sessions_other (st : SessionStore) (sid s : String)
    (l : List TranscriptSegment) (h : s ≠ sid) :
    ((st.add_segments sid l).1).sessions s = st.sessions s := by
  simp [SessionStore.add_segments, h]

theorem store_add_snd (st : SessionStore) (sid : String) (l : List TranscriptSegment) :
    (st.add_segments sid l).2
      = (((st.sessions sid).getD ⟨sid, [], 0, none⟩).add_segments l).2 :=
  rfl

/-- The count invariant `segment_count = len(segments)` survives one
`add_segments`. -/
theorem add_preserves_count_inv (sd : SessionData) (l : List TranscriptSegment)
    (h : sd.segment_count = sd.segments.length) :
    (sd.add_segments l).1.segment_count = (sd.add_segments l).1.segments.length := by
  rw [add_segments_fst_count, add_segments_fst_segments, List.length_append, h]

/-- The per-session count invariant survives any state-changing store
operation. -/
theorem step_preserves_count_inv (st1 st2 : SessionStore) (hstep : StoreStep st1 st2)
    (ih : ∀ sid sd, st1.sessions sid = some sd → sd.segment_count = sd.segments.length) :
    ∀ sid sd, st2.sessions sid = some sd → sd.segment_count = sd.segments.length := by
  cases hstep with
  | add sid0 l =>
    intro sid sd hsd
    by_cases hs : sid = sid0
    · subst hs
      rw [store_add_sessions_self] at hsd
      cases hsd
      cases h0 : st1.sessions sid
      · simp only [h0, Option.getD_none]
        exact add_preserves_count_inv _ _ rfl
      · rename_i sd0
        simp only [h0, Option.getD_some]
        exact add_preserves_count_inv _ _ (ih sid sd0 h0)
    · rw [store_add_sessions_other _ _ _ _ hs] at hsd
      exact ih sid sd hsd
  | analyze sid0 =>
    intro sid sd hsd
    cases h0 : st1.sessions sid0 with
    | none =>
      rw [show (st1.run_analysis sid0).1 = st1 by
        simp [SessionStore.run_analysis, h0]] at hsd
      exact ih sid sd hsd
    | some sd0 =>
      simp only [SessionStore.run_analysis, h0] at hsd
      by_cases hs : sid = sid0
      · subst hs
        simp only [if_pos rfl] at hsd
        cases hsd
        exact ih sid sd0 h0
      · simp only [if_neg hs] at hsd
        exact ih sid sd hsd

/-! ### C1, C2, C6 -/

/-- C1 counterexample, part of the corrected claim: a single ingested
list that contains the same fragment twice stores it twice — the
in-batch dedup that the claim asserts does not exist in
`SessionData.add_segments` (the incoming list is only filtered against
the keys of the segments already stored). -/
theorem dup_in_one_batch_stored_twice :
    (((SessionStore.empty.add_segments "s1"
        [⟨"dup", none, false, 1⟩, ⟨"dup", none, false, 1⟩]).1).sessions "s1"
      = some ⟨"s1", [⟨"dup", none, false, 1⟩, ⟨"dup", none, false, 1⟩], 2, none⟩)
    ∧ ¬ ((([⟨"dup", none, false, 1⟩, ⟨"dup", none, false, 1⟩] :
        List TranscriptSegment).map segKey).Nodup) := by
  constructor
  · decide
  · decide

/-- Appending a dedup-filtered batch with internally distinct keys to a
session whose stored keys are distinct keeps the stored keys distinct. -/
theorem add_segments_keys_nodup (sd : SessionData) (l : List TranscriptSegment)
    (h1 : (sd.segments.map segKey).Nodup) (h2 : (l.map segKey).Nodup) :
    ((sd.add_segments l).1.segments.map segKey).Nodup := by
  rw [add_segments_fst_segments, List.map_append]
  refine List.nodup_append.mpr ⟨h1, ?_, ?_⟩
  · exact h2.sublist ((List.filter_sublist l).map segKey)
  · intro k hk1 hk2
    rcases List.mem_map.mp hk2 with ⟨s, hs, rfl⟩
    have := (List.mem_filter.mp hs).2
    simp only [List.contains, Bool.not_eq_true', List.elem_eq_mem,
      decide_eq_false_iff_not] at this
    exact this hk1

/-- One key-distinct store operation preserves the per-session dedup
key invariant. -/
theorem stepD_preserves_nodup (st1 st2 : SessionStore) (hstep : StoreStepD st1 st2)
    (ih : ∀ sid sd, st1.sessions sid = some sd → (sd.segments.map segKey).Nodup) :
    ∀ sid sd, st2.sessions sid = some sd → (sd.segments.map segKey).Nodup := by
  cases hstep with
  | add sid0 l hd =>
    intro sid sd hsd
    by_cases hs : sid = sid0
    · subst hs
      rw [store_add_sessions_self] at hsd
      cases hsd
      cases h0 : st1.sessions sid with
      | none =>
        simp only [h0, Option.getD_none]
        exact add_segments_keys_nodup _ _ (by simp) hd
      | some sd0 =>
        simp only [h0, Option.getD_some]
        exact add_segments_keys_nodup _ _ (ih sid sd0 h0) hd
    · rw [store_add_sessions_other _ _ _ _ hs] at hsd
      exact ih sid sd hsd
  | analyze sid0 =>
    intro sid sd hsd
    cases h0 : st1.sessions sid0 with
    | none =>
      rw [show (st1.run_analysis sid0).1 = st1 by
        simp [SessionStore.run_analysis, h0]] at hsd
      exact ih sid sd hsd
    | some sd0 =>
      simp only [SessionStore.run_analysis, h0] at hsd
      by_cases hs : sid = sid0
      · subst hs
        simp only [if_pos rfl] at hsd
        cases hsd
        exact ih sid sd0 h0
      · simp only [if_neg hs] at hsd
        exact ih sid sd hsd

/-- C1 (amended): across calls the dedup key invariant holds — in any
store reachable by operations whose ingested lists are themselves free
of duplicate `(timestamp, text)` keys, no two stored fragments of a
session share a key; moreover a single `add_segments` call never drops
a stored fragment and stores every incoming fragment whose key is not
yet present (fragments differing in timestamp or text are both
stored).  The amendment restricts the claim to batches without
internal duplicates, which `dup_in_one_batch_stored_twice` shows is
necessary. -/
theorem dedup_key_invariant_amended :
    (∀ st, ReachableD st → ∀ sid sd, st.sessions sid = some sd →
      ((sd.segments.map segKey).Nodup))
    ∧ (∀ (sd : SessionData) (l : List TranscriptSegment),
        ((sd.segments.map segKey).Nodup → (l.map segKey).Nodup →
          (((sd.add_segments l).1.segments.map segKey).Nodup))
        ∧ (∀ s ∈ l, segKey s ∉ sd.segments.map segKey →
            s ∈ (sd.add_segments l).1.segments)
        ∧ (∀ s ∈ sd.segments, s ∈ (sd.add_segments l).1.segments)) := by
  refine ⟨?_, ?_⟩
  · intro st hst
    induction hst with
    | refl =>
      intro sid sd h0
      simp [SessionStore.empty] at h0
    | tail _ hbc ih =>
      exact stepD_preserves_nodup _ _ hbc ih
  · intro sd l
    refine ⟨add_segments_keys_nodup sd l, ?_, ?_⟩
    · intro s hs hk
      rw [add_segments_fst_segments, List.mem_append]
      refine Or.inr (List.mem_filter.mpr ⟨hs, ?_⟩)
      simp [List.contains, hk]
    · intro s hs
      rw [add_segments_fst_segments, List.mem_append]
      exact Or.inl hs

/-- Witness for `dedup_key_invariant_amended`: one ingestion of two
fragments with equal text but different timestamps stores both, and
the stored keys are distinct. -/
theorem dedup_key_invariant_amended_witness :
    ((SessionStore.empty.add_segments "s1"
        [⟨"a", none, false, 1⟩, ⟨"a", none, false, 2⟩]).1.sessions "s1"
      = some ⟨"s1", [⟨"a", none, false, 1⟩, ⟨"a", none, false, 2⟩], 2, none⟩)
    ∧ ((((⟨"s1", [⟨"a", none, false, 1⟩, ⟨"a", none, false, 2⟩], 2, none⟩ :
        SessionData)).segments.map segKey).Nodup) := by
  refine ⟨by decide, ?_⟩
  exact (dedup_key_invariant_amended).1 _
    (Relation.ReflTransGen.single
      (StoreStepD.add SessionStore.empty "s1"
        [⟨"a", none, false, 1⟩, ⟨"a", none, false, 2⟩] (by decide)))
    "s1" _ (by decide)

/-- C2: ingesting an identical fragment list twice for the same
session: the second call returns `0` new fragments and leaves the
session — in particular its `segment_count` and its number of stored
fragments — exactly as after the first call. -/
theorem ingest_twice_idempotent (st : SessionStore) (sid : String)
    (l : List TranscriptSegment) :
    ((st.add_segments sid l).1.add_segments sid l).2 = 0
    ∧ ((st.add_segments sid l).1.add_segments sid l).1.sessions sid
        = (st.add_segments sid l).1.sessions sid
    ∧ (((st.add_segments sid l).1.add_segments sid l).1.sessions sid).map
          (fun sd => sd.segment_count)
        = ((st.add_segments sid l).1.sessions sid).map (fun sd => sd.segment_count)
    ∧ (((st.add_segments sid l).1.add_segments sid l).1.sessions sid).map
          (fun sd => sd.segments.length)
        = ((st.add_segments sid l).1.sessions sid).map (fun sd => sd.segments.length) := by
  have hbase2 : (((st.add_segments sid l).1).sessions sid).getD ⟨sid, [], 0, none⟩
      = (((st.sessions sid).getD ⟨sid, [], 0, none⟩).add_segments l).1 := by
    rw [store_add_sessions_self]
    rfl
  have hidem := add_segments_idem ((st.sessions sid).getD ⟨sid, [], 0, none⟩) l
  have hsess : ((st.add_segments sid l).1.add_segments sid l).1.sessions sid
      = (st.add_segments sid l).1.sessions sid := by
    rw [store_add_sessions_self (st.add_segments sid l).1 sid l, hbase2, hidem,
      store_add_sessions_self]
  refine ⟨?_, hsess, congrArg _ hsess, congrArg _ hsess⟩
  rw [store_add_snd, hbase2, hidem]

/-- C6: in every store reachable by store operations, each session's
`segment_count` equals the number of fragments it holds; and no
state-changing operation ever removes a stored fragment (the old
fragment list is a prefix of the new one) or decreases
`segment_count`. -/
theorem count_invariant_and_monotone :
    (∀ st, Reachable st → ∀ sid sd, st.sessions sid = some sd →
      sd.segment_count = sd.segments.length)
    ∧ (∀ st1 st2, StoreStep st1 st2 → ∀ sid sd, st1.sessions sid = some sd →
      ∃ sd2, st2.sessions sid = some sd2 ∧ sd.segments <+: sd2.segments
        ∧ sd.segment_count ≤ sd2.segment_count) := by
  constructor
  · intro st hst
    induction hst with
    | refl =>
      intro sid sd h0
      simp [SessionStore.empty] at h0
    | tail _ hbc ih =>
      exact step_preserves_count_inv _ _ hbc ih
  · intro st1 st2 hstep sid sd hsd
    cases hstep with
    | add sid0 l =>
      by_cases hs : sid = sid0
      · subst hs
        refine ⟨(((st1.sessions sid).getD ⟨sid, [], 0, none⟩).add_segments l).1,
          store_add_sessions_self st1 sid l, ?_, ?_⟩
        · rw [hsd, Option.getD_some, add_segments_fst_segments]
          exact ⟨_, rfl⟩
        · rw [hsd, Option.getD_some, add_segments_fst_count]
          exact Nat.le_add_right _ _
      · refine ⟨sd, ?_, List.prefix_rfl, le_refl _⟩
        rw [store_add_sessions_other _ _ _ _ hs]
        exact hsd
    | analyze sid0 =>
      cases h0 : st1.sessions sid0 with
      | none =>
        refine ⟨sd, ?_, List.prefix_rfl, le_refl _⟩
        rw [show (st1.run_analysis sid0).1 = st1 by
          simp [SessionStore.run_analysis, h0]]
        exact hsd
      | some sd0 =>
        by_cases hs : sid = sid0
        · subst hs
          rw [h0] at hsd
          cases hsd
          refine ⟨⟨sd.session_id, sd.segments, sd.segment_count,
              some (analyze_segments 0 sd.ordered_segments sid)⟩, ?_,
            List.prefix_rfl, le_refl _⟩
          simp [SessionStore.run_analysis, h0]
        · refine ⟨sd, ?_, List.prefix_rfl, le_refl _⟩
          simp only [SessionStore.run_analysis, h0, if_neg hs]
          exact hsd

/-- Witness for `count_invariant_and_monotone` at a store reached by
one concrete ingestion. -/
theorem count_invariant_and_monotone_witness :
    ((SessionStore.empty.add_segments "s1" [⟨"hello", none, false, 1⟩]).1.sessions "s1"
      = some ⟨"s1", [⟨"hello", none, false, 1⟩], 1, none⟩)
    ∧ ((⟨"s1", [⟨"hello", none, false, 1⟩], 1, none⟩ : SessionData).segment_count
        = (⟨"s1", [⟨"hello", none, false, 1⟩], 1, none⟩ : SessionData).segments.length) := by
  refine ⟨by decide, ?_⟩
  exact (count_invariant_and_monotone).1 _
    (Relation.ReflTransGen.single
      (StoreStep.add SessionStore.empty "s1" [⟨"hello", none, false, 1⟩]))
    "s1" _ (by decide)

/-! ### C5: the sliding window -/

/-- C5: when `window_size > 0` and the fragment count exceeds it, the
scan target is exactly the last `window_size` fragments in input order
(`specLastFragments`, the spec-side reverse/take/reverse reading) and
has length `window_size`; otherwise every fragment is scanned; and the
whole analysis equals the unwindowed analysis of the scan target, so
nothing outside the window influences the result. -/
theorem window_scans_last_fragments (w : Nat) (segs : List TranscriptSegment)
    (sid : String) :
    ((0 < w ∧ w < segs.length) →
      targetSegments w segs = specLastFragments w segs
      ∧ (targetSegments w segs).length = w)
    ∧ (¬ (0 < w ∧ w < segs.length) → targetSegments w segs = segs)
    ∧ analyze_segments w segs sid = analyze_segments 0 (targetSegments w segs) sid := by
  refine ⟨?_, ?_, ?_⟩
  · intro h
    constructor
    · rw [targetSegments, if_pos h, specLastFragments,
        ← List.rtake_eq_reverse_take_reverse]
      rfl
    · rw [targetSegments, if_pos h, List.length_drop]
      omega
  · intro h
    rw [targetSegments, if_neg h]
  · have ht : targetSegments 0 (targetSegments w segs) = targetSegments w segs := by
      rw [targetSegments]
      simp
    simp only [analyze_segments]
    rw [ht]

/-- Witness for `window_scans_last_fragments`: with `window_size = 1`
and three chronologically ordered fragments only the last one is
scanned. -/
theorem window_scans_last_fragments_witness :
    (targetSegments 1 [⟨"one", none, false, 1⟩, ⟨"two", none, false, 2⟩,
        ⟨"three", none, false, 3⟩]
      = specLastFragments 1 [⟨"one", none, false, 1⟩, ⟨"two", none, false, 2⟩,
        ⟨"three", none, false, 3⟩])
    ∧ targetSegments 1 [⟨"one", none, false, 1⟩, ⟨"two", none, false, 2⟩,
        ⟨"three", none, false, 3⟩] = [⟨"three", none, false, 3⟩] := by
  refine ⟨?_, by decide⟩
  exact ((window_scans_last_fragments 1 [⟨"one", none, false, 1⟩,
    ⟨"two", none, false, 2⟩, ⟨"three", none, false, 3⟩] "s").1 (by decide)).1

/-! ### C4: the finding sort order -/

/-- C4: the finding list returned by `analyze_segments` is sorted by
effective timestamp ascending (a missing timestamp counts as `0`), and
findings with equal effective timestamps are ordered by confidence
descending. -/
theorem findings_sorted (w : Nat) (segs : List TranscriptSegment) (sid : String) :
    (analyze_segments w segs sid).insights.Pairwise
      (fun a b => effTs a.timestamp ≤ effTs b.timestamp ∧
        (effTs a.timestamp = effTs b.timestamp → b.confidence ≤ a.confidence)) := by
  have h := List.sorted_insertionSort insightLE
    ((scanSegments (targetSegments w segs)).out)
  have he : (analyze_segments w segs sid).insights
      = List.insertionSort insightLE ((scanSegments (targetSegments w segs)).out) := rfl
  rw [he]
  refine List.Pairwise.imp ?_ h
  intro a b hab
  rcases hab with hlt | ⟨heq, hc⟩
  · exact ⟨le_of_lt hlt, fun he2 => absurd (he2 ▸ hlt) (lt_irrefl _)⟩
  · exact ⟨le_of_eq heq, fun _ => hc⟩

/-! ### Helper lemmas: insertion-ordered counters -/

theorem bool_eq_false_of_not {b : Bool} (h : ¬ b = true) : b = false := by
  cases b
  · rfl
  · exact absurd rfl h

theorem lookup0_append (m1 m2 : List (String × Nat)) (k : String) :
    lookup0 (m1 ++ m2) k
      = if m1.any (fun q => q.1 == k) then lookup0 m1 k else lookup0 m2 k := by
  induction m1 with
  | nil => simp [lookup0]
  | cons p ps ih =>
    by_cases hp : (p.1 == k) = true
    · simp [lookup0, hp]
    · have hpf : (p.1 == k) = false := bool_eq_false_of_not hp
      simp only [List.cons_append, lookup0, hpf, Bool.false_eq_true, if_false,
        List.any_cons, Bool.false_or]
      exact ih

theorem lookup0_eq_zero_of_not_any (m : List (String × Nat)) (k : String)
    (h : m.any (fun q => q.1 == k) = false) : lookup0 m k = 0 := by
  induction m with
  | nil => rfl
  | cons p ps ih =>
    simp only [List.any_cons, Bool.or_eq_false_iff] at h
    simp [lookup0, h.1, ih h.2]

theorem lookup0_map_upd (m : List (String × Nat)) (k : String) (n : Nat) (k2 : String) :
    lookup0 (m.map (fun q => if q.1 == k then (q.1, q.2 + n) else q)) k2
      = if k2 = k ∧ m.any (fun q => q.1 == k2) = true then lookup0 m k2 + n
        else lookup0 m k2 := by
  induction m with
  | nil => simp [lookup0]
  | cons p ps ih =>
    by_cases hp : (p.1 == k2) = true
    · have hpk2 : p.1 = k2 := eq_of_beq hp
      by_cases hk : k2 = k
      · subst hk
        have hpk : (p.1 == k2) = true := hp
        simp [lookup0, hp, hpk2, hpk]
      · have hpk : (p.1 == k) = false := by
          by_cases hb : (p.1 == k) = true
          · exact absurd (hpk2.symm.trans (eq_of_beq hb)) hk
          · simpa using hb
        simp [lookup0, hp, hpk, hk]
    · have hpf : (p.1 == k2) = false := by simpa using hp
      have hfst : (if (p.1 == k) = true then (p.1, p.2 + n) else p).1 = p.1 := by
        by_cases hq : p.1 = k <;> simp [hq]
      simp only [List.map_cons, lookup0, hfst, hpf, List.any_cons, Bool.false_or]
      simp only [lookup0, hpf] at ih
      exact ih

theorem map_upd_id_of_not_any (m : List (String × Nat)) (k : String) (n : Nat)
    (h : m.any (fun q => q.1 == k) = false) :
    m.map (fun q => if q.1 == k then (q.1, q.2 + n) else q) = m := by
  refine (List.map_congr_left ?_).trans (List.map_id m)
  intro q hq
  have := List.any_eq_false.mp h q hq
  simp [this]

theorem lookup0_bump (m : List (String × Nat)) (k : String) (n : Nat) (k2 : String) :
    lookup0 (bump m k n) k2
      = if k2 = k then lookup0 m k2 + n else lookup0 m k2 := by
  rw [bump]
  by_cases hany : m.any (fun q => q.1 == k) = true
  · rw [if_pos hany, lookup0_map_upd]
    by_cases hk : k2 = k
    · subst hk
      simp [hany]
    · simp [hk]
  · have hf : m.any (fun q => q.1 == k) = false := bool_eq_false_of_not hany
    rw [if_neg hany, lookup0_append]
    by_cases hk : k2 = k
    · subst hk
      rw [if_neg (by rw [hf]; exact Bool.false_ne_true), lookup0_eq_zero_of_not_any m k2 hf]
      simp [lookup0]
    · by_cases h2 : m.any (fun q => q.1 == k2) = true
      · rw [if_pos h2, if_neg hk]
      · have hf2 : m.any (fun q => q.1 == k2) = false := bool_eq_false_of_not h2
        rw [if_neg (by rw [hf2]; exact Bool.false_ne_true), if_neg hk,
          lookup0_eq_zero_of_not_any m k2 hf2]
        have hkk : (k == k2) = false := by
          simp only [beq_eq_false_iff_ne, ne_eq]
          exact fun h => hk h.symm
        simp [lookup0, hkk]

theorem keys_bump (m : List (String × Nat)) (k : String) (n : Nat) :
    (bump m k n).map (fun q => q.1)
      = if m.any (fun q => q.1 == k) then m.map (fun q => q.1)
        else m.map (fun q => q.1) ++ [k] := by
  rw [bump]
  by_cases hany : m.any (fun q => q.1 == k) = true
  · rw [if_pos hany, if_pos hany, List.map_map]
    refine List.map_congr_left ?_
    intro q _
    by_cases hq : q.1 = k <;> simp [hq]
  · rw [if_neg hany, if_neg hany, List.map_append]
    rfl

theorem keys_nodup_bump (m : List (String × Nat)) (k : String) (n : Nat)
    (hnd : (m.map (fun q => q.1)).Nodup) :
    ((bump m k n).map (fun q => q.1)).Nodup := by
  rw [keys_bump]
  by_cases hany : m.any (fun q => q.1 == k) = true
  · rwa [if_pos hany]
  · rw [if_neg hany]
    have hf : m.any (fun q => q.1 == k) = false := bool_eq_false_of_not hany
    refine List.nodup_append.mpr ⟨hnd, List.nodup_singleton k, ?_⟩
    intro a ha hb
    rcases List.mem_map.mp ha with ⟨q, hq, rfl⟩
    have h3 := List.any_eq_false.mp hf q hq
    simp only [List.mem_singleton] at hb
    simp [hb] at h3

theorem mem_keys_bump (m : List (String × Nat)) (k : String) (n : Nat) (k2 : String) :
    k2 ∈ (bump m k n).map (fun q => q.1)
      ↔ k2 ∈ m.map (fun q => q.1) ∨ k2 = k := by
  rw [keys_bump]
  by_cases hany : m.any (fun q => q.1 == k) = true
  · rw [if_pos hany]
    constructor
    · exact Or.inl
    · rintro (h | rfl)
      · exact h
      · rcases List.any_eq_true.mp hany with ⟨q, hq, hqk⟩
        exact List.mem_map.mpr ⟨q, hq, eq_of_beq hqk⟩
  · rw [if_neg hany]
    simp

theorem sumVals_bump (m : List (String × Nat)) (k : String) (n : Nat)
    (hnd : (m.map (fun q => q.1)).Nodup) :
    sumVals (bump m k n) = sumVals m + n := by
  rw [bump]
  by_cases hany : m.any (fun q => q.1 == k) = true
  · rw [if_pos hany]
    induction m with
    | nil => simp at hany
    | cons p ps ih =>
      by_cases hp : (p.1 == k) = true
      · have hpk : p.1 = k := eq_of_beq hp
        have hnotin : ps.any (fun q => q.1 == k) = false := by
          refine bool_eq_false_of_not ?_
          intro h
          rcases List.any_eq_true.mp h with ⟨q, hq, hqk⟩
          have hmem : p.1 ∈ ps.map (fun q => q.1) :=
            List.mem_map.mpr ⟨q, hq, (eq_of_beq hqk).trans hpk.symm⟩
          exact absurd hmem (by
            rw [List.map_cons] at hnd
            exact (List.nodup_cons.mp hnd).1)
        rw [List.map_cons, if_pos hp, map_upd_id_of_not_any ps k n hnotin]
        simp only [sumVals, List.map_cons, List.sum_cons]
        omega
      · have hpf : (p.1 == k) = false := by simpa using hp
        have hany2 : ps.any (fun q => q.1 == k) = true := by
          simpa [hpf] using hany
        have hnd2 : (ps.map (fun q => q.1)).Nodup := by
          rw [List.map_cons] at hnd
          exact (List.nodup_cons.mp hnd).2
        rw [List.map_cons, if_neg (by simp [hpf])]
        simp only [sumVals, List.map_cons, List.sum_cons]
        rw [show ((ps.map (fun q => if q.1 == k then (q.1, q.2 + n) else q)).map
            (fun q => q.2)).sum = sumVals ps + n from ih hnd2 hany2,
          show (ps.map (fun q => q.2)).sum = sumVals ps from rfl]
        omega
  · rw [if_neg hany]
    simp [sumVals]

theorem sum_map_one {α : Type} (l : List α) : (l.map (fun _ => 1)).sum = l.length := by
  induction l with
  | nil => rfl
  | cons x xs ih =>
    simp [ih]
    omega

/-- The four facts of a keyed counter fold: keys stay duplicate-free,
each key holds the accumulated amount of its elements, the values sum
to the total amount, and the key set is the old key set plus the keys
of the folded elements. -/
theorem keyFold_spec {α : Type} (key : α → String) (amt : α → Nat) (l : List α) :
    ∀ acc, (acc.map (fun q => q.1)).Nodup →
      ((keyFold key amt l acc).map (fun q => q.1)).Nodup
      ∧ (∀ k2, lookup0 (keyFold key amt l acc) k2
          = lookup0 acc k2 + ((l.filter (fun x => key x == k2)).map amt).sum)
      ∧ sumVals (keyFold key amt l acc) = sumVals acc + (l.map amt).sum
      ∧ (∀ k2, k2 ∈ (keyFold key amt l acc).map (fun q => q.1)
          ↔ (k2 ∈ acc.map (fun q => q.1) ∨ ∃ x ∈ l, key x = k2)) := by
  induction l with
  | nil =>
    intro acc hnd
    refine ⟨hnd, ?_, ?_, ?_⟩
    · intro k2
      simp [keyFold]
    · simp [keyFold]
    · intro k2
      simp [keyFold]
  | cons x xs ih =>
    intro acc hnd
    have hstep : keyFold key amt (x :: xs) acc
        = keyFold key amt xs (bump acc (key x) (amt x)) := rfl
    have hnd2 := keys_nodup_bump acc (key x) (amt x) hnd
    obtain ⟨ihnd, ihlook, ihsum, ihmem⟩ := ih (bump acc (key x) (amt x)) hnd2
    refine ⟨hstep ▸ ihnd, ?_, ?_, ?_⟩
    · intro k2
      rw [hstep, ihlook k2, lookup0_bump]
      by_cases hk : k2 = key x
      · have hb : (key x == k2) = true := beq_iff_eq.mpr hk.symm
        rw [if_pos hk]
        simp [List.filter_cons, hb]
        omega
      · have hb : (key x == k2) = false := by
          simp only [beq_eq_false_iff_ne, ne_eq]
          exact fun h => hk h.symm
        rw [if_neg hk]
        simp only [List.filter_cons, hb, Bool.false_eq_true, if_false]
    · rw [hstep, ihsum, sumVals_bump acc (key x) (amt x) hnd]
      simp only [List.map_cons, List.sum_cons]
      omega
    · intro k2
      rw [hstep]
      rw [ihmem k2]
      rw [mem_keys_bump]
      simp only [List.mem_cons]
      constructor
      · rintro ((h | rfl) | ⟨y, hy, rfl⟩)
        · exact Or.inl h
        · exact Or.inr ⟨x, Or.inl rfl, rfl⟩
        · exact Or.inr ⟨y, Or.inr hy, rfl⟩
      · rintro (h | ⟨y, (rfl | hy), rfl⟩)
        · exact Or.inl (Or.inl h)
        · exact Or.inl (Or.inr rfl)
        · exact Or.inr ⟨y, hy, rfl⟩

theorem lookup0_buildCounter (ks : List String) (c : String) :
    lookup0 (buildCounter ks) c = (ks.filter (fun k => k == c)).length := by
  have h := (keyFold_spec (fun k => k) (fun _ => 1) ks [] (by simp)).2.1 c
  have hb : buildCounter ks = keyFold (fun k => k) (fun _ => 1) ks [] := rfl
  rw [hb, h]
  simp [lookup0, sum_map_one]

theorem sumVals_buildCounter (ks : List String) :
    sumVals (buildCounter ks) = ks.length := by
  have h := (keyFold_spec (fun k => k) (fun _ => 1) ks [] (by simp)).2.2.1
  have hb : buildCounter ks = keyFold (fun k => k) (fun _ => 1) ks [] := rfl
  rw [hb, h]
  simp [sumVals, sum_map_one]

/-! ### C10: internal consistency of the finding set -/

/-- C10: for every input, the `SessionInsights` returned by
`analyze_segments` is internally consistent — `total_insights` is the
length of the insight list, the summary holds, for every category
string, the number of insights of that category (a missing key means
`0`), the summary values sum to the total, and the empty input yields
the empty finding set. -/
theorem finding_set_consistent (w : Nat) (segs : List TranscriptSegment) (sid : String) :
    (analyze_segments w segs sid).total_insights
        = (analyze_segments w segs sid).insights.length
    ∧ (∀ c, lookup0 (analyze_segments w segs sid).summary c
        = ((analyze_segments w segs sid).insights.filter
            (fun i => i.type.value == c)).length)
    ∧ sumVals (analyze_segments w segs sid).summary
        = (analyze_segments w segs sid).total_insights
    ∧ (segs = [] → (analyze_segments w segs sid).insights = []
        ∧ (analyze_segments w segs sid).total_insights = 0
        ∧ (analyze_segments w segs sid).summary = []) := by
  have hsum : (analyze_segments w segs sid).summary
      = buildCounter ((analyze_segments w segs sid).insights.map
          (fun i => i.type.value)) := rfl
  refine ⟨rfl, ?_, ?_, ?_⟩
  · intro c
    rw [hsum, lookup0_buildCounter]
    rw [show ((analyze_segments w segs sid).insights.map (fun i => i.type.value)).filter
          (fun k => k == c)
        = ((analyze_segments w segs sid).insights.filter
            (fun i => i.type.value == c)).map (fun i => i.type.value) from
      List.filter_map _ _]
    rw [List.length_map]
  · rw [hsum, sumVals_buildCounter, List.length_map]
    rfl
  · intro h
    subst h
    have ht : targetSegments w [] = [] := by
      rw [targetSegments]
      simp
    have h1 : analyze_segments w [] sid = ⟨sid, [], 0, []⟩ := by
      simp only [analyze_segments, ht]
      rfl
    rw [h1]
    exact ⟨rfl, rfl, rfl⟩

/-- Witness for `finding_set_consistent` at the empty input. -/
theorem finding_set_consistent_witness :
    (analyze_segments 0 [] "s").insights = []
    ∧ (analyze_segments 0 [] "s").total_insights = 0
    ∧ (analyze_segments 0 [] "s").summary = [] :=
  (finding_set_consistent 0 [] "s").2.2.2 rfl

/-! ### C3: the scan emits exactly the key-deduplicated matches -/

theorem liftK_injective : Function.Injective liftK := by
  intro a b h
  obtain ⟨a1, a2, a3⟩ := a
  obtain ⟨b1, b2, b3⟩ := b
  simp only [liftK, Prod.mk.injEq, Option.some.injEq] at h
  obtain ⟨h1, h2, h3⟩ := h
  subst h1
  subst h2
  subst h3
  rfl

/-- One inner-loop step: the state invariant is preserved, the output
only grows by first-time matches of this rule, a hit leaves its key in
`seen`, and `seen` never shrinks. -/
theorem scanStep_spec (seg : TranscriptSegment) (st : ScanState)
    (p : InsightType × Rule) (h : GoodState st) :
    GoodState (scanStep seg st p)
    ∧ (∃ δ, (scanStep seg st p).out = st.out ++ δ
        ∧ ∀ i ∈ δ, phraseHit p.2 seg = true ∧ i = mkInsight p.1 p.2 seg)
    ∧ (phraseHit p.2 seg = true → keyP p seg ∈ (scanStep seg st p).seen)
    ∧ (∀ k ∈ st.seen, k ∈ (scanStep seg st p).seen) := by
  unfold scanStep
  by_cases hhit : phraseHit p.2 seg = true
  · rw [if_pos hhit]
    by_cases hseen : keyP p seg ∈ st.seen
    · rw [if_pos hseen]
      exact ⟨h, ⟨[], by simp, by simp⟩, fun _ => hseen, fun k hk => hk⟩
    · rw [if_neg hseen]
      refine ⟨⟨?_, ?_⟩, ⟨[mkInsight p.1 p.2 seg], rfl, ?_⟩, ?_, ?_⟩
      · show (st.out ++ [mkInsight p.1 p.2 seg]).map keyI
          = (st.seen ++ [keyP p seg]).map liftK
        rw [List.map_append, List.map_append, h.1]
        rfl
      · show (st.seen ++ [keyP p seg]).Nodup
        refine List.nodup_append.mpr ⟨h.2, List.nodup_singleton _, ?_⟩
        intro a ha hb
        simp only [List.mem_singleton] at hb
        subst hb
        exact hseen ha
      · intro i hi
        simp only [List.mem_singleton] at hi
        exact ⟨hhit, hi⟩
      · intro _
        show keyP p seg ∈ st.seen ++ [keyP p seg]
        simp
      · intro k hk
        show k ∈ st.seen ++ [keyP p seg]
        exact List.mem_append.mpr (Or.inl hk)
  · rw [if_neg hhit]
    exact ⟨h, ⟨[], by simp, by simp⟩, fun hh => absurd hh hhit, fun k hk => hk⟩

/-- The inner rule loop over any pair list, generalised over the
starting state. -/
theorem scanFold_spec (seg : TranscriptSegment) (ps : List (InsightType × Rule)) :
    ∀ st, GoodState st →
      GoodState (ps.foldl (scanStep seg) st)
      ∧ (∃ δ, (ps.foldl (scanStep seg) st).out = st.out ++ δ
          ∧ ∀ i ∈ δ, ∃ p ∈ ps, phraseHit p.2 seg = true ∧ i = mkInsight p.1 p.2 seg)
      ∧ (∀ p ∈ ps, phraseHit p.2 seg = true →
          keyP p seg ∈ (ps.foldl (scanStep seg) st).seen)
      ∧ (∀ k ∈ st.seen, k ∈ (ps.foldl (scanStep seg) st).seen) := by
  induction ps with
  | nil =>
    intro st h
    exact ⟨h, ⟨[], by simp, by simp⟩, by simp, fun k hk => hk⟩
  | cons p ps ih =>
    intro st h
    obtain ⟨h1, ⟨d1, hd1, hd1p⟩, hc1, hm1⟩ := scanStep_spec seg st p h
    obtain ⟨h2, ⟨d2, hd2, hd2p⟩, hc2, hm2⟩ := ih (scanStep seg st p) h1
    rw [List.foldl_cons]
    refine ⟨h2, ⟨d1 ++ d2, by rw [hd2, hd1, List.append_assoc], ?_⟩, ?_, ?_⟩
    · intro i hi
      rcases List.mem_append.mp hi with hi | hi
      · obtain ⟨hh, he⟩ := hd1p i hi
        exact ⟨p, List.mem_cons_self p ps, hh, he⟩
      · obtain ⟨q, hq, hh, he⟩ := hd2p i hi
        exact ⟨q, List.mem_cons_of_mem p hq, hh, he⟩
    · intro q hq hhit
      rcases List.mem_cons.mp hq with rfl | hq
      · exact hm2 _ (hc1 hhit)
      · exact hc2 q hq hhit
    · intro k hk
      exact hm2 k (hm1 k hk)

/-- The outer segment loop, generalised over the starting state. -/
theorem scanSegments_fold_spec (segs : List TranscriptSegment) :
    ∀ st, GoodState st →
      GoodState (segs.foldl processSegment st)
      ∧ (∃ δ, (segs.foldl processSegment st).out = st.out ++ δ
          ∧ ∀ i ∈ δ, ∃ p ∈ rulePairs, ∃ seg ∈ segs,
              phraseHit p.2 seg = true ∧ i = mkInsight p.1 p.2 seg)
      ∧ (∀ seg ∈ segs, ∀ p ∈ rulePairs, phraseHit p.2 seg = true →
          keyP p seg ∈ (segs.foldl processSegment st).seen)
      ∧ (∀ k ∈ st.seen, k ∈ (segs.foldl processSegment st).seen) := by
  induction segs with
  | nil =>
    intro st h
    exact ⟨h, ⟨[], by simp, by simp⟩, by simp, fun k hk => hk⟩
  | cons seg segs ih =>
    intro st h
    obtain ⟨h1, ⟨d1, hd1, hd1p⟩, hc1, hm1⟩ := scanFold_spec seg rulePairs st h
    obtain ⟨h2, ⟨d2, hd2, hd2p⟩, hc2, hm2⟩ := ih (processSegment st seg) h1
    rw [List.foldl_cons]
    refine ⟨h2, ⟨d1 ++ d2, by rw [hd2]; show _ = _; rw [show processSegment st seg
        = rulePairs.foldl (scanStep seg) st from rfl, hd1, List.append_assoc], ?_⟩,
      ?_, ?_⟩
    · intro i hi
      rcases List.mem_append.mp hi with hi | hi
      · obtain ⟨p, hp, hh, he⟩ := hd1p i hi
        exact ⟨p, hp, seg, List.mem_cons_self seg segs, hh, he⟩
      · obtain ⟨p, hp, s2, hs2, hh, he⟩ := hd2p i hi
        exact ⟨p, hp, s2, List.mem_cons_of_mem seg hs2, hh, he⟩
    · intro s2 hs2 p hp hhit
      rcases List.mem_cons.mp hs2 with rfl | hs2
      · exact hm2 _ (hc1 p hp hhit)
      · exact hc2 s2 hs2 p hp hhit
    · intro k hk
      exact hm2 k (hm1 k hk)

/-- The scan phase from the empty state: soundness, key-completeness
and key-uniqueness of the emitted insight list. -/
theorem scan_out_spec (segs : List TranscriptSegment) :
    (∀ i ∈ (scanSegments segs).out, ∃ p ∈ rulePairs, ∃ seg ∈ segs,
        phraseHit p.2 seg = true ∧ i = mkInsight p.1 p.2 seg)
    ∧ (∀ p ∈ rulePairs, ∀ seg ∈ segs, phraseHit p.2 seg = true →
        ∃ i ∈ (scanSegments segs).out, keyI i = liftK (keyP p seg))
    ∧ ((scanSegments segs).out.map keyI).Nodup := by
  have hinit : GoodState ⟨[], []⟩ := ⟨rfl, List.nodup_nil⟩
  obtain ⟨hg, ⟨δ, hδ, hδp⟩, hcomp, _⟩ := scanSegments_fold_spec segs ⟨[], []⟩ hinit
  have hout : (scanSegments segs).out = δ := by
    rw [show (scanSegments segs).out = (segs.foldl processSegment ⟨[], []⟩).out from rfl,
      hδ]
    rfl
  refine ⟨?_, ?_, ?_⟩
  · intro i hi
    rw [hout] at hi
    exact hδp i hi
  · intro p hp seg hseg hhit
    have hk := hcomp seg hseg p hp hhit
    have hmem : liftK (keyP p seg) ∈ (scanSegments segs).out.map keyI := by
      rw [show (scanSegments segs).out.map keyI
          = (scanSegments segs).seen.map liftK from hg.1]
      exact List.mem_map_of_mem liftK hk
    rcases List.mem_map.mp hmem with ⟨i, hi, he⟩
    exact ⟨i, hi, he⟩
  · rw [show (scanSegments segs).out.map keyI
        = (scanSegments segs).seen.map liftK from hg.1]
    exact hg.2.map liftK_injective

/-- C3: `analyze_segments` emits a finding for a (category, rule) pair
and a fragment iff the rule phrase occurs in the fragment's lowercased
text and no finding with the same dedup key was already emitted:
(soundness) every emitted finding arises from some matching pair and
scanned fragment and carries the rule's confidence and suggestion, the
full fragment text, the rule phrase, and the fragment's speaker and
timestamp (`mkInsight`); (completeness) every matching pair and
scanned fragment is represented by an emitted finding with its dedup
key; (uniqueness) no two emitted findings share a dedup key — so the
same phrase at two different timestamps yields two findings and two
different phrases in one fragment yield two findings, each key exactly
once. -/
theorem analyze_emits_iff_match (w : Nat) (segs : List TranscriptSegment)
    (sid : String) :
    (∀ i ∈ (analyze_segments w segs sid).insights, ∃ p ∈ rulePairs,
        ∃ seg ∈ targetSegments w segs, phraseHit p.2 seg = true
          ∧ i = mkInsight p.1 p.2 seg)
    ∧ (∀ p ∈ rulePairs, ∀ seg ∈ targetSegments w segs, phraseHit p.2 seg = true →
        ∃ i ∈ (analyze_segments w segs sid).insights,
          keyI i = (p.1.value, p.2.phrase, some seg.timestamp))
    ∧ ((analyze_segments w segs sid).insights.map keyI).Nodup := by
  have hperm : List.Perm (analyze_segments w segs sid).insights
      ((scanSegments (targetSegments w segs)).out) :=
    List.perm_insertionSort insightLE _
  obtain ⟨hs, hc, hnd⟩ := scan_out_spec (targetSegments w segs)
  refine ⟨?_, ?_, ?_⟩
  · intro i hi
    exact hs i (hperm.mem_iff.mp hi)
  · intro p hp seg hseg hhit
    obtain ⟨i, hi, he⟩ := hc p hp seg hseg hhit
    exact ⟨i, hperm.mem_iff.mpr hi, he⟩
  · exact ((hperm.map keyI).nodup_iff).mpr hnd

/-- Witness for `analyze_emits_iff_match`: the pricing-objection rule
"too expensive" matched inside one concrete fragment yields a finding
with the expected dedup key. -/
theorem analyze_emits_iff_match_witness :
    ∃ i ∈ (analyze_segments 0
        [⟨"This is too expensive", some "S2", false, 1⟩] "s").insights,
      keyI i = ("pricing_objection", "too expensive", some 1) := by
  have h := (analyze_emits_iff_match 0
      [⟨"This is too expensive", some "S2", false, 1⟩] "s").2.1
    (InsightType.pricing_objection, ⟨"too expensive", q90,
      "Acknowledge the concern, then pivot to ROI and value delivered."⟩)
    (by decide) ⟨"This is too expensive", some "S2", false, 1⟩ (by decide) (by decide)
  exact h

/-! ### C7: speaker statistics -/

/-- C7 counterexample: a whitespace-only speaker label is *not* mapped
to the sentinel label — `_speaker_label` strips it to the empty string,
while an absent speaker maps to `"UNKNOWN"`, so a blank-speaker
fragment and an absent-speaker fragment land in two different groups. -/
theorem blank_speaker_not_sentinel :
    (((⟨"s", [⟨"hi there", some " ", false, 1⟩, ⟨"yo", none, false, 2⟩], 2, none⟩ :
        SessionData).get_speaker_stats).map (fun st => st.speaker)) = ["", "UNKNOWN"]
    ∧ ("" : String) ≠ "UNKNOWN"
    ∧ speakerLabel ⟨"hi there", some " ", false, 1⟩ = ""
    ∧ speakerLabel ⟨"yo", none, false, 2⟩ = "UNKNOWN" := by
  refine ⟨?_, by decide, by decide, by decide⟩
  decide

theorem statsFold_eq (segs : List TranscriptSegment) :
    statsFold segs
      = (keyFold speakerLabel (fun _ => 1) segs [],
         keyFold speakerLabel (fun s => pyWordCount s.text) segs []) := by
  suffices h : ∀ (l : List TranscriptSegment) a b,
      l.foldl (fun acc seg => (bump acc.1 (speakerLabel seg) 1,
        bump acc.2 (speakerLabel seg) (pyWordCount seg.text))) (a, b)
      = (keyFold speakerLabel (fun _ => 1) l a,
         keyFold speakerLabel (fun s => pyWordCount s.text) l b) by
    exact h segs [] []
  intro l
  induction l with
  | nil =>
    intro a b
    rfl
  | cons x xs ih =>
    intro a b
    rw [List.foldl_cons, ih]
    rfl

theorem lookup0_eq_of_mem (m : List (String × Nat)) (k : String) (v : Nat)
    (hnd : (m.map (fun q => q.1)).Nodup) (hm : (k, v) ∈ m) : lookup0 m k = v := by
  induction m with
  | nil => cases hm
  | cons p ps ih =>
    rcases List.mem_cons.mp hm with rfl | hm2
    · simp [lookup0]
    · rw [List.map_cons] at hnd
      obtain ⟨hp1, hnd2⟩ := List.nodup_cons.mp hnd
      have hpk : (p.1 == k) = false := by
        refine bool_eq_false_of_not ?_
        intro hb
        refine hp1 ?_
        rw [eq_of_beq hb]
        exact List.mem_map_of_mem (fun q => q.1) hm2
      simp only [lookup0, hpk, Bool.false_eq_true, if_false]
      exact ih hnd2 hm2

/-- C7 (amended): `get_speaker_stats` groups fragments by the
normalized label of `_speaker_label` — an *absent or empty* speaker is
mapped to the constant sentinel `"UNKNOWN"` (a whitespace-only speaker
is instead stripped to `""`, as `blank_speaker_not_sentinel` shows,
which is what the amendment changes) — each label appears once, every
fragment is represented, each group's `segment_count` and `word_count`
are the fragment count and whitespace-token word count of that label's
fragments, and each `talk_ratio` is the group's word count as a
rounded percentage of the session's total words, with a zero total
replaced by a divisor of one. -/
theorem speaker_stats_amended (sd : SessionData) :
    ((sd.get_speaker_stats.map (fun st => st.speaker)).Nodup)
    ∧ (∀ seg ∈ sd.segments, (seg.speaker = none ∨ seg.speaker = some "") →
        speakerLabel seg = UNKNOWN_SPEAKER)
    ∧ (∀ seg ∈ sd.segments, ∃ st ∈ sd.get_speaker_stats,
        st.speaker = speakerLabel seg)
    ∧ (∀ i, ∀ h : i < sd.get_speaker_stats.length,
        (sd.get_speaker_stats.get ⟨i, h⟩).segment_count
            = labelCount sd.segments ((sd.get_speaker_stats.get ⟨i, h⟩).speaker)
        ∧ (sd.get_speaker_stats.get ⟨i, h⟩).word_count
            = labelWords sd.segments ((sd.get_speaker_stats.get ⟨i, h⟩).speaker)
        ∧ ( SpeakerStats.talk_ratio (sd.get_speaker_stats.get ⟨i, h⟩))
            = round1 (((labelWords sd.segments
                  ((sd.get_speaker_stats.get ⟨i, h⟩).speaker) : Nat) : ℚ)
                / (((if totalWords sd.segments = 0 then 1
                    else totalWords sd.segments : Nat) : Nat) : ℚ) * 100)) := by
  have h1 := keyFold_spec speakerLabel (fun _ => 1) sd.segments [] (by simp)
  have h2 := keyFold_spec speakerLabel (fun s => pyWordCount s.text) sd.segments []
    (by simp)
  have hl1 : ∀ L, lookup0 (keyFold speakerLabel (fun _ => 1) sd.segments []) L
      = labelCount sd.segments L := by
    intro L
    have h := h1.2.1 L
    rw [h]
    simp [lookup0, labelCount, sum_map_one]
  have hl2 : ∀ L, lookup0
        (keyFold speakerLabel (fun s => pyWordCount s.text) sd.segments []) L
      = labelWords sd.segments L := by
    intro L
    have h := h2.2.1 L
    rw [h]
    simp [lookup0, labelWords]
  have hs2 : sumVals (keyFold speakerLabel (fun s => pyWordCount s.text) sd.segments [])
      = totalWords sd.segments := by
    have h := h2.2.2.1
    rw [h]
    simp [sumVals, totalWords]
  have hstats : sd.get_speaker_stats
      = (keyFold speakerLabel (fun s => pyWordCount s.text) sd.segments []).map
          (fun kv => ⟨kv.1,
            lookup0 (keyFold speakerLabel (fun _ => 1) sd.segments []) kv.1, kv.2,
            round1 ((kv.2 : ℚ)
              / ((if sumVals (keyFold speakerLabel (fun s => pyWordCount s.text)
                    sd.segments []) = 0 then 1
                  else sumVals (keyFold speakerLabel (fun s => pyWordCount s.text)
                    sd.segments []) : Nat) : ℚ) * 100)⟩) := by
    simp only [SessionData.get_speaker_stats, statsFold_eq]
  refine ⟨?_, ?_, ?_, ?_⟩
  · rw [hstats, List.map_map]
    exact h2.1
  · intro seg _ hb
    rcases hb with hb | hb
    · simp [speakerLabel, hb, UNKNOWN_SPEAKER]
    · simp [speakerLabel, hb, UNKNOWN_SPEAKER]
  · intro seg hseg
    have hmem : speakerLabel seg
        ∈ (keyFold speakerLabel (fun s => pyWordCount s.text) sd.segments []).map
            (fun q => q.1) :=
      (h2.2.2.2 (speakerLabel seg)).mpr (Or.inr ⟨seg, hseg, rfl⟩)
    rcases List.mem_map.mp hmem with ⟨kv, hkv, hkv1⟩
    exact ⟨_, by rw [hstats]; exact List.mem_map_of_mem _ hkv, hkv1⟩
  · intro i h
    have hlen : i < (keyFold speakerLabel (fun s => pyWordCount s.text)
        sd.segments []).length := by
      rw [hstats, List.length_map] at h
      exact h
    have hget : sd.get_speaker_stats.get ⟨i, h⟩
        = ⟨((keyFold speakerLabel (fun s => pyWordCount s.text) sd.segments []).get
              ⟨i, hlen⟩).1,
          lookup0 (keyFold speakerLabel (fun _ => 1) sd.segments [])
            ((keyFold speakerLabel (fun s => pyWordCount s.text) sd.segments []).get
              ⟨i, hlen⟩).1,
          ((keyFold speakerLabel (fun s => pyWordCount s.text) sd.segments []).get
              ⟨i, hlen⟩).2,
          round1 ((((keyFold speakerLabel (fun s => pyWordCount s.text) sd.segments []).get
              ⟨i, hlen⟩).2 : ℚ)
            / ((if sumVals (keyFold speakerLabel (fun s => pyWordCount s.text)
                  sd.segments []) = 0 then 1
                else sumVals (keyFold speakerLabel (fun s => pyWordCount s.text)
                  sd.segments []) : Nat) : ℚ) * 100)⟩ := by
      have := hstats
      simp only [this, List.get_eq_getElem, List.getElem_map]
    have hkvmem : ((keyFold speakerLabel (fun s => pyWordCount s.text)
          sd.segments []).get ⟨i, hlen⟩)
        ∈ keyFold speakerLabel (fun s => pyWordCount s.text) sd.segments [] :=
      List.get_mem _ _ hlen
    have hv : lookup0 (keyFold speakerLabel (fun s => pyWordCount s.text) sd.segments [])
          ((keyFold speakerLabel (fun s => pyWordCount s.text) sd.segments []).get
            ⟨i, hlen⟩).1
        = ((keyFold speakerLabel (fun s => pyWordCount s.text) sd.segments []).get
            ⟨i, hlen⟩).2 :=
      lookup0_eq_of_mem _ _ _ h2.1 hkvmem
    refine ⟨?_, ?_, ?_⟩
    · rw [hget]
      exact hl1 _
    · rw [hget]
      exact (hv.symm.trans (hl2 _))
    · rw [hget]
      show round1 _ = round1 _
      rw [show ((keyFold speakerLabel (fun s => pyWordCount s.text) sd.segments []).get
            ⟨i, hlen⟩).2 = labelWords sd.segments
            ((keyFold speakerLabel (fun s => pyWordCount s.text) sd.segments []).get
              ⟨i, hlen⟩).1 from (hv.symm.trans (hl2 _)), hs2]

/-- Witness for `speaker_stats_amended`: an absent speaker gets the
sentinel label and a named speaker gets its own group. -/
theorem speaker_stats_amended_witness :
    speakerLabel ⟨"yo", none, false, 2⟩ = UNKNOWN_SPEAKER
    ∧ ∃ st ∈ (⟨"s", [⟨"hello world", some "Alice", false, 1⟩,
        ⟨"yo", none, false, 2⟩], 2, none⟩ : SessionData).get_speaker_stats,
        st.speaker = "Alice" := by
  constructor
  · exact (speaker_stats_amended ⟨"s", [⟨"hello world", some "Alice", false, 1⟩,
      ⟨"yo", none, false, 2⟩], 2, none⟩).2.1 ⟨"yo", none, false, 2⟩ (by decide)
      (Or.inl rfl)
  · exact (speaker_stats_amended ⟨"s", [⟨"hello world", some "Alice", false, 1⟩,
      ⟨"yo", none, false, 2⟩], 2, none⟩).2.2.1
      ⟨"hello world", some "Alice", false, 1⟩ (by decide)

/-! ### C8: run_analysis -/

/-- C8: `run_analysis` returns `none` and leaves the registry exactly
as it was when the session does not exist; when the session exists it
runs the engine (window 0) over the session's timestamp-ordered
fragments, stores the result as the session's cached findings (other
sessions untouched), and returns that same finding set, which a
subsequent `get_insights` then returns. -/
theorem run_analysis_spec (st : SessionStore) (sid : String) :
    (st.sessions sid = none → st.run_analysis sid = (st, none))
    ∧ (∀ sd, st.sessions sid = some sd →
        (st.run_analysis sid).2 = some (analyze_segments 0 sd.ordered_segments sid)
        ∧ (st.run_analysis sid).1.sessions sid
            = some ⟨sd.session_id, sd.segments, sd.segment_count,
                some (analyze_segments 0 sd.ordered_segments sid)⟩
        ∧ (st.run_analysis sid).1.get_insights sid = (st.run_analysis sid).2
        ∧ (∀ s2, s2 ≠ sid → (st.run_analysis sid).1.sessions s2 = st.sessions s2)) := by
  constructor
  · intro h0
    simp [SessionStore.run_analysis, h0]
  · intro sd h0
    refine ⟨?_, ?_, ?_, ?_⟩
    · simp [SessionStore.run_analysis, h0]
    · simp [SessionStore.run_analysis, h0]
    · simp [SessionStore.run_analysis, SessionStore.get_insights, h0]
    · intro s2 hs2
      simp [SessionStore.run_analysis, h0, hs2]

/-- Witness for `run_analysis_spec`: the missing-session case on the
empty store and the existing-session case on a one-session store. -/
theorem run_analysis_spec_witness :
    (SessionStore.empty.run_analysis "nope" = (SessionStore.empty, none))
    ∧ ((⟨fun s => if s = "s1" then
          some ⟨"s1", [⟨"too expensive", none, false, 1⟩], 1, none⟩
        else none⟩ : SessionStore).run_analysis "s1").2
      = some (analyze_segments 0
          (SessionData.ordered_segments
            ⟨"s1", [⟨"too expensive", none, false, 1⟩], 1, none⟩) "s1") := by
  constructor
  · exact (run_analysis_spec SessionStore.empty "nope").1 rfl
  · exact ((run_analysis_spec ⟨fun s => if s = "s1" then
        some ⟨"s1", [⟨"too expensive", none, false, 1⟩], 1, none⟩
      else none⟩ "s1").2
      ⟨"s1", [⟨"too expensive", none, false, 1⟩], 1, none⟩ (by decide)).1

/-! ### C9: the insights endpoint filter -/

/-- Every insight emitted by the engine carries a nonnegative
confidence (all catalog confidences are nonnegative). -/
theorem analyze_confidence_nonneg (w : Nat) (segs : List TranscriptSegment)
    (sid : String) :
    ∀ i ∈ (analyze_segments w segs sid).insights, 0 ≤ i.confidence := by
  intro i hi
  have hperm : List.Perm (analyze_segments w segs sid).insights
      ((scanSegments (targetSegments w segs)).out) :=
    List.perm_insertionSort insightLE _
  obtain ⟨hs, _, _⟩ := scan_out_spec (targetSegments w segs)
  obtain ⟨p, hp, seg, _, _, rfl⟩ := hs i (hperm.mem_iff.mp hi)
  have hall : ∀ p ∈ rulePairs, 0 ≤ (p : InsightType × Rule).2.confidence := by decide
  exact hall p hp

/-- The two staged filters of the endpoint equal the single conjunctive
filter of the claim, given nonnegative confidences. -/
theorem filterResponse_insights (sid : String) (ty : Option InsightType) (minC : ℚ)
    (ins : SessionInsights) (hnn : ∀ i ∈ ins.insights, 0 ≤ i.confidence)
    (hmc : 0 ≤ minC) :
    (filterResponse sid ty minC ins).insights
      = ins.insights.filter (fun i =>
          (match ty with | none => true | some t => decide (i.type = t))
            && decide (minC ≤ i.confidence)) := by
  cases ty with
  | none =>
    show (if 0 < minC then ins.insights.filter (fun i => decide (minC ≤ i.confidence))
        else ins.insights)
      = ins.insights.filter (fun i => true && decide (minC ≤ i.confidence))
    by_cases h0 : 0 < minC
    · rw [if_pos h0]
      refine List.filter_congr ?_
      intro i _
      simp
    · rw [if_neg h0]
      have hm0 : minC = 0 := le_antisymm (not_lt.mp h0) hmc
      subst hm0
      symm
      refine List.filter_eq_self.mpr ?_
      intro i hi
      simp [hnn i hi]
  | some t =>
    show (if 0 < minC then (ins.insights.filter (fun i => i.type == t)).filter
          (fun i => decide (minC ≤ i.confidence))
        else ins.insights.filter (fun i => i.type == t))
      = ins.insights.filter (fun i => decide (i.type = t) && decide (minC ≤ i.confidence))
    by_cases h0 : 0 < minC
    · rw [if_pos h0, List.filter_filter]
      refine List.filter_congr ?_
      intro i _
      rw [Bool.and_comm]
      have hb : (i.type == t) = decide (i.type = t) := by
        by_cases h : i.type = t
        · simp [h]
        · simp [h]
      rw [hb]
    · rw [if_neg h0]
      have hm0 : minC = 0 := le_antisymm (not_lt.mp h0) hmc
      subst hm0
      refine List.filter_congr ?_
      intro i hi
      simp [hnn i hi]
      rfl

/-- C9: for a session with a cached (or freshly computed) finding set
and `0 ≤ min_confidence` (the endpoint validates this) and pydantic's
`confidence ≥ 0` invariant, the endpoint returns exactly the findings
whose category equals the filter (when given) and whose confidence is
at least `min_confidence`; the summary and total of the response are
recomputed over the filtered list; and the cached finding set is not
mutated — in the cached case the store is returned unchanged, in the
fresh case the cache is set to the *unfiltered* fresh finding set. -/
theorem get_findings_filter_spec (st : SessionStore) (sid : String)
    (ty : Option InsightType) (minC : ℚ) (sd : SessionData)
    (h0 : st.sessions sid = some sd) (hmc : 0 ≤ minC) :
    (∀ ins, sd.latest_insights = some ins →
      (∀ i ∈ ins.insights, 0 ≤ i.confidence) →
      (getInsightsEndpoint st sid ty minC).1 = st
      ∧ (getInsightsEndpoint st sid ty minC).2
          = some (filterResponse sid ty minC ins)
      ∧ (filterResponse sid ty minC ins).insights
          = ins.insights.filter (fun i =>
              (match ty with | none => true | some t => decide (i.type = t))
                && decide (minC ≤ i.confidence))
      ∧ (filterResponse sid ty minC ins).total_insights
          = (filterResponse sid ty minC ins).insights.length
      ∧ (∀ c, lookup0 (filterResponse sid ty minC ins).summary c
          = ((filterResponse sid ty minC ins).insights.filter
              (fun i => i.type.value == c)).length))
    ∧ (sd.latest_insights = none →
        (getInsightsEndpoint st sid ty minC).1 = (st.run_analysis sid).1
        ∧ (getInsightsEndpoint st sid ty minC).2
            = some (filterResponse sid ty minC
                (analyze_segments 0 sd.ordered_segments sid))
        ∧ (filterResponse sid ty minC
              (analyze_segments 0 sd.ordered_segments sid)).insights
            = (analyze_segments 0 sd.ordered_segments sid).insights.filter (fun i =>
                (match ty with | none => true | some t => decide (i.type = t))
                  && decide (minC ≤ i.confidence))
        ∧ (st.run_analysis sid).1.sessions sid
            = some ⟨sd.session_id, sd.segments, sd.segment_count,
                some (analyze_segments 0 sd.ordered_segments sid)⟩) := by
  have hsummary : ∀ ins : SessionInsights, ∀ c,
      lookup0 (filterResponse sid ty minC ins).summary c
        = ((filterResponse sid ty minC ins).insights.filter
            (fun i => i.type.value == c)).length := by
    intro ins c
    have hs : (filterResponse sid ty minC ins).summary
        = buildCounter ((filterResponse sid ty minC ins).insights.map
            (fun i => i.type.value)) := rfl
    rw [hs, lookup0_buildCounter]
    rw [show (((filterResponse sid ty minC ins).insights.map
          (fun i => i.type.value)).filter (fun k => k == c))
        = (((filterResponse sid ty minC ins).insights.filter
            (fun i => i.type.value == c)).map (fun i => i.type.value)) from
      List.filter_map _ _]
    rw [List.length_map]
  constructor
  · intro ins hcache hnn
    have hend : getInsightsEndpoint st sid ty minC
        = (st, some (filterResponse sid ty minC ins)) := by
      simp [getInsightsEndpoint, SessionStore.get_insights, h0, hcache]
    refine ⟨by rw [hend], by rw [hend], ?_, rfl, hsummary ins⟩
    exact filterResponse_insights sid ty minC ins hnn hmc
  · intro hcache
    have hrun : st.run_analysis sid
        = (⟨fun s => if s = sid then
              some ⟨sd.session_id, sd.segments, sd.segment_count,
                some (analyze_segments 0 sd.ordered_segments sid)⟩
            else st.sessions s⟩,
           some (analyze_segments 0 sd.ordered_segments sid)) := by
      simp [SessionStore.run_analysis, h0]
    have hend : getInsightsEndpoint st sid ty minC
        = ((st.run_analysis sid).1,
           some (filterResponse sid ty minC
             (analyze_segments 0 sd.ordered_segments sid))) := by
      simp [getInsightsEndpoint, SessionStore.get_insights, h0, hcache, hrun]
    refine ⟨by rw [hend], by rw [hend], ?_, ?_⟩
    · exact filterResponse_insights sid ty minC _
        (analyze_confidence_nonneg 0 sd.ordered_segments sid) hmc
    · rw [hrun]
      simp

/-- Witness for `get_findings_filter_spec`: a one-session store with a
cached finding set; filtering with no type filter and zero threshold
returns the cache unchanged. -/
theorem get_findings_filter_spec_witness :
    ((getInsightsEndpoint
        ⟨fun s => if s = "s1" then
          some ⟨"s1", [], 0, some ⟨"s1", [], 0, []⟩⟩ else none⟩
        "s1" none 0).1
      = ⟨fun s => if s = "s1" then
          some ⟨"s1", [], 0, some ⟨"s1", [], 0, []⟩⟩ else none⟩)
    ∧ (filterResponse "s1" none 0 ⟨"s1", [], 0, []⟩).insights
        = ([] : List Insight).filter (fun i =>
            (match (none : Option InsightType) with
              | none => true | some t => decide (i.type = t))
              && decide ((0:ℚ) ≤ i.confidence)) := by
  have h := (get_findings_filter_spec
    ⟨fun s => if s = "s1" then
      some ⟨"s1", [], 0, some ⟨"s1", [], 0, []⟩⟩ else none⟩
    "s1" none 0 ⟨"s1", [], 0, some ⟨"s1", [], 0, []⟩⟩ (by decide) (by decide)).1
    ⟨"s1", [], 0, []⟩ rfl (by decide)
  exact ⟨h.1, h.2.2.1⟩

end Negocia
